import Mathlib

/-!
Shallow embedding of the excerpted toolchain fragments:

* `PPCEmitter` — the PowerPC machine-code emitter
  (`llvm/lib/Target/PowerPC/MCTargetDesc/PPCMCCodeEmitter.cpp`):
  operand encoders for branches and memory forms, fixup emission, and
  `encodeInstruction`'s byte output.
* `LoopToStd` — the MLIR loop-to-CFG lowering pass (`LoopToStandard.cpp`):
  the `ForLowering` and `IfLowering` rewrite patterns on an explicit
  basic-block representation.
* `VEPrinter` — the VE assembly printer (`VEInstPrinter.cpp`):
  `printRegName`, `printOperand` and `printInst`.

External infrastructure that the fragments call into (register-encoding
tables, the TableGen-generated instruction encoder and assembly writer)
is abstracted as fields of an environment structure; the behaviour under
verification is the code of the fragments themselves.
-/

namespace PPCEmitter

/-- Machine-code operand of an `MCInst`: a register, a 64-bit immediate, or
a not-yet-resolved expression (abstracted by an identifier). -/
inductive MCOperand where
  | reg (r : Nat)
  | imm (i : Int)
  | expr (e : Nat)
deriving DecidableEq, Repr

/-- A machine instruction: an opcode and its operand list. -/
structure MCInst where
  opcode : Nat
  operands : List MCOperand
deriving DecidableEq, Repr

/-- Test for a register operand, mirroring `MCOperand::isReg`. -/
def MCOperand.isReg : MCOperand → Bool
  | .reg _ => true
  | _ => false

/-- Test for an immediate operand, mirroring `MCOperand::isImm`. -/
def MCOperand.isImm : MCOperand → Bool
  | .imm _ => true
  | _ => false

/-- The PPC fixup kinds that appear in `PPCMCCodeEmitter.cpp`. -/
inductive PPCFixupKind where
  | fixup_ppc_br24
  | fixup_ppc_br24abs
  | fixup_ppc_brcond14
  | fixup_ppc_brcond14abs
  | fixup_ppc_half16
  | fixup_ppc_half16ds
  | fixup_ppc_nofixup
  | fixup_ppc_br24_notoc
deriving DecidableEq, Repr

/-- A fixup record: byte offset within the instruction, the unresolved
expression, and the fixup kind (`MCFixup::create(Offset, Expr, Kind)`). -/
structure MCFixup where
  offset : Nat
  expr : Nat
  kind : PPCFixupKind
deriving DecidableEq, Repr

/-- Opcode value standing for `PPC::BL8_NOTOC` (a fixed element of the
TableGen-generated opcode enumeration; only its identity matters). -/
def PPC.BL8_NOTOC : Nat := 1471

/-- Failure modes of the emitter: a failed `assert` (or an out-of-range
operand access / `llvm_unreachable`), or `report_fatal_error`. -/
inductive EmitErr where
  | assertFail
  | fatal
deriving DecidableEq, Repr

/-- Abstracted target context for the emitter: endianness of the target and
the register-encoding table.  `regEncValue op r idx` stands for
`getEncodingValue(PPCInstrInfo::getRegNumForOperand(MCII.get(op), r, idx))`,
a value from a `uint16_t` table, hence the bound. -/
structure EmitterCtx where
  isLittleEndian : Bool
  regEncValue : Nat → Nat → Nat → Nat
  regEncValueLt : ∀ op r idx, regEncValue op r idx < 2 ^ 16
  instSize : Nat → Nat

/-- Conversion of a C++ `int64_t` to the `uint64_t` value it converts to
(two's-complement reinterpretation). -/
def uint64OfInt (i : Int) : Nat := (i % (2 : Int) ^ 64).toNat

/-- Index of the operand inside its instruction, mirroring `getOpIdxForMO`
(which scans the operand list for the operand). -/
def getOpIdxForMO (MI : MCInst) (MO : MCOperand) : Nat :=
  MI.operands.indexOf MO

/-- `PPCMCCodeEmitter::getMachineOpValue`: a register operand yields its
encoding-table value, an immediate yields its value (as `uint64_t`);
an expression operand trips the `assert(MO.isImm() && ...)`. -/
def getMachineOpValue (ctx : EmitterCtx) (MI : MCInst) (MO : MCOperand) :
    Except EmitErr Nat :=
  match MO with
  | .reg r => .ok (ctx.regEncValue MI.opcode r (getOpIdxForMO MI MO))
  | .imm i => .ok (uint64OfInt i)
  | .expr _ => .error .assertFail

/-- Fetch operand `OpNo` of `MI`; out-of-range access is modelled as an
assertion failure. -/
def getOperand (MI : MCInst) (OpNo : Nat) : Except EmitErr MCOperand :=
  match MI.operands[OpNo]? with
  | some MO => .ok MO
  | none => .error .assertFail

/-- `PPCMCCodeEmitter::getDirectBrEncoding`.  Register and immediate
operands are encoded by `getMachineOpValue` (truncated to the `unsigned`
return type); otherwise one `fixup_ppc_br24_notoc` (for `PPC::BL8_NOTOC`)
or `fixup_ppc_br24` fixup at offset 0 is appended and 0 is returned. -/
def getDirectBrEncoding (ctx : EmitterCtx) (MI : MCInst) (OpNo : Nat)
    (Fixups : List MCFixup) : Except EmitErr (Nat × List MCFixup) := do
  let MO ← getOperand MI OpNo
  match MO with
  | .expr e =>
      pure (0, Fixups ++ [⟨0, e,
        if MI.opcode = PPC.BL8_NOTOC then .fixup_ppc_br24_notoc
        else .fixup_ppc_br24⟩])
  | _ => do
      let v ← getMachineOpValue ctx MI MO
      pure (v % 2 ^ 32, Fixups)

/-- `PPCMCCodeEmitter::getCondBrEncoding`. -/
def getCondBrEncoding (ctx : EmitterCtx) (MI : MCInst) (OpNo : Nat)
    (Fixups : List MCFixup) : Except EmitErr (Nat × List MCFixup) := do
  let MO ← getOperand MI OpNo
  match MO with
  | .expr e =>
      pure (0, Fixups ++ [⟨0, e, .fixup_ppc_brcond14⟩])
  | _ => do
      let v ← getMachineOpValue ctx MI MO
      pure (v % 2 ^ 32, Fixups)

/-- `PPCMCCodeEmitter::getAbsDirectBrEncoding`. -/
def getAbsDirectBrEncoding (ctx : EmitterCtx) (MI : MCInst) (OpNo : Nat)
    (Fixups : List MCFixup) : Except EmitErr (Nat × List MCFixup) := do
  let MO ← getOperand MI OpNo
  match MO with
  | .expr e =>
      pure (0, Fixups ++ [⟨0, e, .fixup_ppc_br24abs⟩])
  | _ => do
      let v ← getMachineOpValue ctx MI MO
      pure (v % 2 ^ 32, Fixups)

/-- `PPCMCCodeEmitter::getAbsCondBrEncoding`. -/
def getAbsCondBrEncoding (ctx : EmitterCtx) (MI : MCInst) (OpNo : Nat)
    (Fixups : List MCFixup) : Except EmitErr (Nat × List MCFixup) := do
  let MO ← getOperand MI OpNo
  match MO with
  | .expr e =>
      pure (0, Fixups ++ [⟨0, e, .fixup_ppc_brcond14abs⟩])
  | _ => do
      let v ← getMachineOpValue ctx MI MO
      pure (v % 2 ^ 32, Fixups)

/-- `PPCMCCodeEmitter::getImm16Encoding`.  The fixup for an expression
operand sits at byte offset 0 on little-endian targets and 2 on
big-endian ones. -/
def getImm16Encoding (ctx : EmitterCtx) (MI : MCInst) (OpNo : Nat)
    (Fixups : List MCFixup) : Except EmitErr (Nat × List MCFixup) := do
  let MO ← getOperand MI OpNo
  match MO with
  | .expr e =>
      pure (0, Fixups ++
        [⟨if ctx.isLittleEndian then 0 else 2, e, .fixup_ppc_half16⟩])
  | _ => do
      let v ← getMachineOpValue ctx MI MO
      pure (v % 2 ^ 32, Fixups)

/-- `PPCMCCodeEmitter::getMemRIX16Encoding`.  The register operand at
`OpNo+1` contributes its encoding shifted left by 12 (truncated to the
`unsigned` local `RegBits`); an immediate displacement must be a multiple
of 16 (asserted) and contributes bits 15..4 masked to 12 bits; an
expression displacement appends a `fixup_ppc_half16ds` fixup. -/
def getMemRIX16Encoding (ctx : EmitterCtx) (MI : MCInst) (OpNo : Nat)
    (Fixups : List MCFixup) : Except EmitErr (Nat × List MCFixup) := do
  let RegOp ← getOperand MI (OpNo + 1)
  if !RegOp.isReg then throw .assertFail
  else do
    let rv ← getMachineOpValue ctx MI RegOp
    let RegBits := (rv <<< 12) % 2 ^ 32
    let MO ← getOperand MI OpNo
    match MO with
    | .imm i =>
        if i % 16 = 0 then do
          let v ← getMachineOpValue ctx MI MO
          pure ((((v >>> 4) &&& 0xFFF) ||| RegBits) % 2 ^ 32, Fixups)
        else throw .assertFail
    | .expr e =>
        pure (RegBits, Fixups ++
          [⟨if ctx.isLittleEndian then 0 else 2, e, .fixup_ppc_half16ds⟩])
    | .reg _ => throw .assertFail

/-- `PPCMCCodeEmitter::getMemRI34PCRelEncoding`.  The operand at `OpNo+1`
must be an immediate; its value is shifted left by 34 into `RegBits`
(a `uint64_t`, hence reduction modulo `2^64`), and if the result is
nonzero `report_fatal_error("Operand must be 0")` fires.  Otherwise the
displacement operand's value is masked to its low 34 bits. -/
def getMemRI34PCRelEncoding (ctx : EmitterCtx) (MI : MCInst) (OpNo : Nat)
    (Fixups : List MCFixup) : Except EmitErr (Nat × List MCFixup) := do
  let RegOp ← getOperand MI (OpNo + 1)
  if !RegOp.isImm then throw .assertFail
  else do
    let rv ← getMachineOpValue ctx MI RegOp
    let RegBits := (rv <<< 34) % 2 ^ 64
    if RegBits ≠ 0 then throw .fatal
    else do
      let MO ← getOperand MI OpNo
      let v ← getMachineOpValue ctx MI MO
      pure ((v &&& 0x3FFFFFFFF) ||| RegBits, Fixups)

/-- Byte sequence written by `support::endian::write<uint32_t>`: the value
truncated to 32 bits, as four bytes in the given byte order. -/
def write32 (isLE : Bool) (value : Nat) : List Nat :=
  let w := value % 2 ^ 32
  let bs := [w % 2 ^ 8, w / 2 ^ 8 % 2 ^ 8, w / 2 ^ 16 % 2 ^ 8, w / 2 ^ 24 % 2 ^ 8]
  if isLE then bs else bs.reverse

/-- Recover the 32-bit word from four bytes in the given byte order
(specification-side inverse of `write32`). -/
def decode32 (isLE : Bool) (bs : List Nat) : Nat :=
  match if isLE then bs else bs.reverse with
  | [b0, b1, b2, b3] => b0 + b1 * 2 ^ 8 + b2 * 2 ^ 16 + b3 * 2 ^ 24
  | _ => 0

/-- `PPCMCCodeEmitter::getInstSizeInBytes`: the size recorded for the
opcode in the TableGen-generated instruction descriptions. -/
def getInstSizeInBytes (ctx : EmitterCtx) (MI : MCInst) : Nat :=
  ctx.instSize MI.opcode

/-- `PPCMCCodeEmitter::encodeInstruction`'s byte output, given the already
computed encoding `bits` (`getBinaryCodeForInstr`, generated code outside
this excerpt).  Size 0 writes nothing, size 4 one 32-bit word in target
byte order, size 8 the upper 32 bits first and then the lower 32 bits;
any other size hits `llvm_unreachable`. -/
def encodeInstruction (ctx : EmitterCtx) (bits : Nat) (MI : MCInst) :
    Option (List Nat) :=
  let E := ctx.isLittleEndian
  match getInstSizeInBytes ctx MI with
  | 0 => some []
  | 4 => some (write32 E bits)
  | 8 => some (write32 E (bits >>> 32) ++ write32 E bits)
  | _ => none

end PPCEmitter

namespace LoopToStd

/-!
Model of the `LoopToStandard.cpp` conversion patterns.  SSA values are
identifiers (`Nat`); a region is a list of blocks, and terminator successor
references are positions in the enclosing region's block list.  The
rewrites are modelled for an operation whose enclosing region consists of
the single block holding the `loop.for` / `loop.if` (the operations before
the op, the op, the operations after it, and the block terminator), which
is the configuration the pattern's own comment describes: the rewritten
parent region is then exactly the CFG subgraph the pattern creates.
-/

/-- Integer-comparison predicates (only `slt` is used by the lowering). -/
inductive CmpIPredicate where
  | eq
  | slt
  | sle
deriving DecidableEq, Repr

/-- Non-terminator operations: `addi`, `cmpi`, or any other operation
abstracted by a name, result and operand list. -/
inductive Op where
  | addi (res lhs rhs : Nat)
  | cmpi (res : Nat) (pred : CmpIPredicate) (lhs rhs : Nat)
  | generic (name res : Nat) (operands : List Nat)
deriving DecidableEq, Repr

/-- Block terminators: unconditional and conditional branches (successors
given as block positions in the enclosing region), the structured-loop
terminator `loop.yield`, and a region-exiting return. -/
inductive Term where
  | br (dest : Nat) (args : List Nat)
  | condBr (cond : Nat) (trueDest : Nat) (trueArgs : List Nat)
      (falseDest : Nat) (falseArgs : List Nat)
  | yield (operands : List Nat)
  | ret (operands : List Nat)
deriving DecidableEq, Repr

/-- A basic block: argument values, their types, body operations, and a
terminator. -/
structure Block where
  args : List Nat
  argTypes : List Nat
  ops : List Op
  term : Term
deriving DecidableEq, Repr

/-- Operands of a terminator, as `Operation::getOperands` lists them. -/
def Term.operands : Term → List Nat
  | .br _ xs => xs
  | .condBr c _ ta _ fa => c :: (ta ++ fa)
  | .yield xs => xs
  | .ret xs => xs

/-- Successor positions referenced by a terminator. -/
def Term.dests : Term → List Nat
  | .br d _ => [d]
  | .condBr _ td _ fd _ => [td, fd]
  | .yield _ => []
  | .ret _ => []

/-- Renumber the successor positions of a terminator (the block objects are
moved by `inlineRegionBefore`; values and operands are untouched). -/
def Term.retarget (f : Nat → Nat) : Term → Term
  | .br d xs => .br (f d) xs
  | .condBr c td ta fd fa => .condBr c (f td) ta (f fd) fa
  | .yield xs => .yield xs
  | .ret xs => .ret xs

/-- Value substitution induced by `PatternRewriter::replaceOp`: the k-th
old result is replaced by the k-th replacement value. -/
def substOf : List Nat → List Nat → Nat → Nat
  | o :: os, x :: xs, v => if v = o then x else substOf os xs v
  | _, _, v => v

/-- Apply a value substitution to the operands of an operation. -/
def Op.subst (f : Nat → Nat) : Op → Op
  | .addi r a b => .addi r (f a) (f b)
  | .cmpi r p a b => .cmpi r p (f a) (f b)
  | .generic n r xs => .generic n r (xs.map f)

/-- Apply a value substitution to the operands of a terminator. -/
def Term.subst (f : Nat → Nat) : Term → Term
  | .br d xs => .br d (xs.map f)
  | .condBr c td ta fd fa => .condBr (f c) td (ta.map f) fd (fa.map f)
  | .yield xs => .yield (xs.map f)
  | .ret xs => .ret (xs.map f)

/-- Apply a function to the last element of a list only. -/
def mapLast (g : Block → Block) : List Block → List Block
  | [] => []
  | [b] => [g b]
  | b :: b2 :: bs => b :: mapLast g (b2 :: bs)

/-- A `loop.for` operation: bounds and step values, the initial values of
the loop-carried variables (`getIterOperands`), the result values, and the
body region.  The entry block of the region carries the induction variable
followed by the loop-carried values as arguments. -/
structure ForOp where
  lowerBound : Nat
  upperBound : Nat
  step : Nat
  iterOperands : List Nat
  results : List Nat
  region : List Block
deriving DecidableEq, Repr

/-- Position map for body blocks after `ForLowering` inlines them: the
original entry block object stays behind as the condition block (position
1), every later body block lands after the condition block and the split
first body block (position `j + 2`). -/
def forRetarget (j : Nat) : Nat := if j = 0 then 1 else j + 2

/-- `ForLowering::matchAndRewrite` on a parent block
`⟨pArgs, pre ++ [loop.for] ++ post, pTerm⟩`.  The result is the rewritten
region's block list together with the values substituted for the
`loop.for` results (`conditionBlock->getArguments().drop_front()`).
`fresh` numbers the two values created by the rewrite (the stepped
induction variable and the comparison result).  Failure (`none`) covers
the configurations the C++ could not execute: an empty body region, an
entry block without the induction-variable argument, or a result/carried
count mismatch that `replaceOp` would reject. -/
def forLowering (pArgs : List Nat) (pre post : List Op) (pTerm : Term)
    (f : ForOp) (fresh : Nat) : Option (List Block × List Nat) :=
  match f.region with
  | [] => none
  | B0 :: rest =>
    match B0.args with
    | [] => none
    | iv :: carried =>
      if f.results.length = carried.length then
        let n := rest.length + 1
        let stepped := fresh
        let cmpRes := fresh + 1
        let s := substOf f.results carried
        let bodySplit : List Block := ⟨[], [], B0.ops, B0.term⟩ :: rest
        let bodyMoved := bodySplit.map
          (fun b => { b with term := b.term.retarget forRetarget })
        let body := mapLast
          (fun b => { b with
              ops := b.ops ++ [Op.addi stepped iv f.step],
              term := Term.br 1 (stepped :: b.term.operands) }) bodyMoved
        let initB : Block :=
          ⟨pArgs, [], pre, Term.br 1 (f.lowerBound :: f.iterOperands)⟩
        let condB : Block :=
          ⟨iv :: carried, B0.argTypes,
            [Op.cmpi cmpRes CmpIPredicate.slt iv f.upperBound],
            Term.condBr cmpRes 2 [] (n + 2) []⟩
        let endB : Block := ⟨[], [], post.map (Op.subst s), pTerm.subst s⟩
        some (initB :: condB :: (body ++ [endB]), carried)
      else none

/-- A `loop.if` operation: condition value, result values and their types,
and the `then` and (possibly empty) `else` regions. -/
structure IfOp where
  condition : Nat
  results : List Nat
  resultTypes : List Nat
  thenRegion : List Block
  elseRegion : List Block
deriving DecidableEq, Repr

/-- `IfLowering::matchAndRewrite` on a parent block
`⟨pArgs, pre ++ [loop.if] ++ post, pTerm⟩`.  When the op returns no
values, the block split off after it is used as the continuation; when it
returns values, a fresh block with one argument per result type is
created before the continuation and branches to it, and the results are
replaced by that block's arguments (`fresh` numbers those arguments).
The region terminators become unconditional branches to that target
carrying the terminator operands.  Failure (`none`) covers an empty
`then` region and a result/result-type count mismatch. -/
def ifLowering (pArgs : List Nat) (pre post : List Op) (pTerm : Term)
    (i : IfOp) (fresh : Nat) : Option (List Block × List Nat) :=
  match i.thenRegion with
  | [] => none
  | T0 :: trest =>
    if i.results.length = i.resultTypes.length then
      let t := trest.length + 1
      let e := i.elseRegion.length
      -- Position of the code's `continueBlock`: the fresh dominating block
      -- when there are results, the split-off remainder block otherwise.
      let contCode := t + e + 1
      let freshArgs := (List.range i.resultTypes.length).map (fun k => fresh + k)
      let repl := if i.results.isEmpty then [] else freshArgs
      let s := substOf i.results repl
      let thenBlocks := mapLast
        (fun b => { b with term := Term.br contCode b.term.operands })
        ((T0 :: trest).map
          (fun b => { b with term := b.term.retarget (· + 1) }))
      let elseBlocks := mapLast
        (fun b => { b with term := Term.br contCode b.term.operands })
        (i.elseRegion.map
          (fun b => { b with term := b.term.retarget (· + t + 1) }))
      let falseDest := if i.elseRegion.isEmpty then contCode else t + 1
      let condB : Block :=
        ⟨pArgs, [], pre, Term.condBr i.condition 1 [] falseDest []⟩
      let remainB : Block := ⟨[], [], post.map (Op.subst s), pTerm.subst s⟩
      if i.results.isEmpty then
        some (condB :: (thenBlocks ++ elseBlocks ++ [remainB]), repl)
      else
        let domB : Block :=
          ⟨freshArgs, i.resultTypes, [], Term.br (t + e + 2) []⟩
        some (condB :: (thenBlocks ++ elseBlocks ++ [domB, remainB]), repl)
    else none

/-- A terminator that stays inside a region of `n` blocks: a branch (or
conditional branch) whose successors all lie below `n`.  Interior blocks
of a structured-op region satisfy this after nested lowerings. -/
def Term.internalWithin (n : Nat) : Term → Prop
  | .br d _ => d < n
  | .condBr _ td _ fd _ => td < n ∧ fd < n
  | .yield _ => False
  | .ret _ => False

/-- Single-entry / single-exit shape of a region's block list: no
terminator targets the entry block (position 0) or leaves the list, every
block but the last branches somewhere (control cannot leave from it), and
the last block's terminator is the region-exiting one. -/
def singleEntryExit (R : List Block) : Prop :=
  (∀ b ∈ R, ∀ d ∈ b.term.dests, 0 < d ∧ d < R.length) ∧
  (∀ b ∈ R.dropLast, b.term.dests ≠ []) ∧
  ∃ bl, R.getLast? = some bl ∧ bl.term.dests = []

end LoopToStd

namespace VEPrinter

/-- Operand of a VE `MCInst`: register, 64-bit immediate, or expression. -/
inductive VEOperand where
  | reg (r : Nat)
  | imm (i : Int)
  | expr (e : Nat)
deriving DecidableEq, Repr

/-- A VE machine instruction. -/
structure VEInst where
  opcode : Nat
  operands : List VEOperand
deriving DecidableEq, Repr

/-- Abstracted environment of the printer: the TableGen-generated register
name table (`getRegisterName`), alias printer (`printAliasInstr`, `none`
when no alias form applies), raw instruction printer (`printInstruction`),
expression printing (`MCExpr::print`) and the annotation text appended by
`printAnnotation`. -/
structure VEEnv where
  regName : Nat → String
  aliasForm : VEInst → Nat → Option String
  instForm : VEInst → Nat → String
  exprForm : Nat → String
  annotForm : String → String

/-- Value of `static_cast<int32_t>` applied to an `int64_t`:
the representative of `i` modulo `2^64` reduced into `[-2^31, 2^31)`. -/
def toInt32 (i : Int) : Int := (i + 2 ^ 31) % 2 ^ 32 - 2 ^ 31

/-- `VEInstPrinter::printRegName`: a `%` followed by the register's name
converted to lower case (`StringRef::lower`). -/
def printRegName (env : VEEnv) (r : Nat) : String :=
  "%" ++ (env.regName r).toLower

/-- `VEInstPrinter::printOperand`: registers go through `printRegName`;
immediates are truncated to `int32_t` and printed in decimal (the opcode
switch consists of the default case only); expression operands are
printed by `MCExpr::print`.  An out-of-range operand index is `none`. -/
def printOperand (env : VEEnv) (MI : VEInst) (opNum : Nat) : Option String :=
  match MI.operands[opNum]? with
  | some (.reg r) => some (printRegName env r)
  | some (.imm i) => some (toString (toInt32 i))
  | some (.expr e) => some (env.exprForm e)
  | none => none

/-- `VEInstPrinter::printInst`: the alias form when one exists, otherwise
the raw instruction form, followed by the annotation. -/
def printInst (env : VEEnv) (MI : VEInst) (addr : Nat) (annot : String) :
    String :=
  (match env.aliasForm MI addr with
   | some s => s
   | none => env.instForm MI addr) ++ env.annotForm annot

end VEPrinter

namespace Pipeline

/-- Joint observable state of the two excerpted tools: the PowerPC
emitter's instruction counter (the `MCNumEmitted` statistic) and output
byte stream, and the VE printer's output lines. -/
structure ToolState where
  countEmitted : Nat
  outBytes : List Nat
  outAsm : List String
deriving DecidableEq, Repr

/-- Run `PPCMCCodeEmitter::encodeInstruction`: append its bytes to the
emitter's stream and bump `MCNumEmitted`.  A size outside {0, 4, 8}
(`llvm_unreachable`) leaves the state unchanged. -/
def runEmit (ctx : PPCEmitter.EmitterCtx) (bits : Nat) (MI : PPCEmitter.MCInst)
    (s : ToolState) : ToolState :=
  match PPCEmitter.encodeInstruction ctx bits MI with
  | some bs => { s with outBytes := s.outBytes ++ bs,
                        countEmitted := s.countEmitted + 1 }
  | none => s

/-- Run `VEInstPrinter::printInst`: append the printed instruction to the
printer's output lines. -/
def runPrint (env : VEPrinter.VEEnv) (MI : VEPrinter.VEInst) (addr : Nat)
    (annot : String) (s : ToolState) : ToolState :=
  { s with outAsm := s.outAsm ++ [VEPrinter.printInst env MI addr annot] }

end Pipeline

namespace Samples

/-- A little-endian emitter context with a 32-register encoding table and
the instruction size read off the opcode, used to instantiate theorems on
concrete inputs. -/
def ctxLE : PPCEmitter.EmitterCtx where
  isLittleEndian := true
  regEncValue := fun _ r _ => r % 32
  regEncValueLt := fun _ r _ =>
    Nat.lt_of_lt_of_le (Nat.mod_lt r (by norm_num)) (by norm_num)
  instSize := fun op => op

/-- A big-endian variant of `ctxLE`. -/
def ctxBE : PPCEmitter.EmitterCtx where
  isLittleEndian := false
  regEncValue := fun _ r _ => r % 32
  regEncValueLt := fun _ r _ =>
    Nat.lt_of_lt_of_le (Nat.mod_lt r (by norm_num)) (by norm_num)
  instSize := fun op => op

/-- A concrete VE printer environment with no alias forms. -/
def env0 : VEPrinter.VEEnv where
  regName := fun r => "SX" ++ toString r
  aliasForm := fun _ _ => none
  instForm := fun MI _ => "op" ++ toString MI.opcode
  exprForm := fun e => "sym" ++ toString e
  annotForm := fun a => a

end Samples

/-! ### Theorems -/

section PPCTheorems

open PPCEmitter

/-- C1: for an operand that is neither a register nor an immediate, each of
the four branch encoders appends exactly one fixup at instruction offset 0
(of kind `fixup_ppc_br24_notoc` when the opcode is `PPC::BL8_NOTOC` and
`fixup_ppc_br24` otherwise for `getDirectBrEncoding`; `fixup_ppc_brcond14`,
`fixup_ppc_br24abs`, `fixup_ppc_brcond14abs` for the other three) and
returns 0 as the encoded field. -/
theorem ppc_branch_encoders_expr_emit_one_fixup (ctx : EmitterCtx)
    (MI : MCInst) (OpNo : Nat) (Fixups : List MCFixup) (e : Nat)
    (h : MI.operands[OpNo]? = some (.expr e)) :
    getDirectBrEncoding ctx MI OpNo Fixups =
      .ok (0, Fixups ++ [⟨0, e,
        if MI.opcode = PPC.BL8_NOTOC then .fixup_ppc_br24_notoc
        else .fixup_ppc_br24⟩]) ∧
    getCondBrEncoding ctx MI OpNo Fixups =
      .ok (0, Fixups ++ [⟨0, e, .fixup_ppc_brcond14⟩]) ∧
    getAbsDirectBrEncoding ctx MI OpNo Fixups =
      .ok (0, Fixups ++ [⟨0, e, .fixup_ppc_br24abs⟩]) ∧
    getAbsCondBrEncoding ctx MI OpNo Fixups =
      .ok (0, Fixups ++ [⟨0, e, .fixup_ppc_brcond14abs⟩]) := by
  refine ⟨?_, ?_, ?_, ?_⟩ <;>
    · simp only [getDirectBrEncoding, getCondBrEncoding,
        getAbsDirectBrEncoding, getAbsCondBrEncoding, getOperand, h]
      rfl

/-- Witness for C1 at a concrete instruction and operand. -/
theorem ppc_branch_encoders_expr_emit_one_fixup_witness :
    getDirectBrEncoding Samples.ctxLE ⟨4, [.expr 5]⟩ 0 [] =
      .ok (0, [⟨0, 5, .fixup_ppc_br24⟩]) := by
  have h := ppc_branch_encoders_expr_emit_one_fixup Samples.ctxLE
    ⟨4, [.expr 5]⟩ 0 [] 5 rfl
  simpa [PPC.BL8_NOTOC] using h.1

/-- C5: for a register or immediate operand, the four branch encoders and
`getImm16Encoding` all return the operand's `getMachineOpValue` (as the
`unsigned` return value) and leave the fixup list exactly as it was: no
deferred patch is recorded. -/
theorem ppc_encoders_reg_imm_no_fixup (ctx : EmitterCtx) (MI : MCInst)
    (OpNo : Nat) (Fixups : List MCFixup) (MO : MCOperand)
    (h : MI.operands[OpNo]? = some MO)
    (hri : MO.isReg = true ∨ MO.isImm = true) :
    ∃ v, getMachineOpValue ctx MI MO = .ok v ∧
      getDirectBrEncoding ctx MI OpNo Fixups = .ok (v % 2 ^ 32, Fixups) ∧
      getCondBrEncoding ctx MI OpNo Fixups = .ok (v % 2 ^ 32, Fixups) ∧
      getAbsDirectBrEncoding ctx MI OpNo Fixups = .ok (v % 2 ^ 32, Fixups) ∧
      getAbsCondBrEncoding ctx MI OpNo Fixups = .ok (v % 2 ^ 32, Fixups) ∧
      getImm16Encoding ctx MI OpNo Fixups = .ok (v % 2 ^ 32, Fixups) := by
  cases MO with
  | reg r =>
      refine ⟨_, rfl, ?_, ?_, ?_, ?_, ?_⟩ <;>
        · simp only [getDirectBrEncoding, getCondBrEncoding,
            getAbsDirectBrEncoding, getAbsCondBrEncoding, getImm16Encoding,
            getOperand, h]
          rfl
  | imm i =>
      refine ⟨_, rfl, ?_, ?_, ?_, ?_, ?_⟩ <;>
        · simp only [getDirectBrEncoding, getCondBrEncoding,
            getAbsDirectBrEncoding, getAbsCondBrEncoding, getImm16Encoding,
            getOperand, h]
          rfl
  | expr e => simp [MCOperand.isReg, MCOperand.isImm] at hri

/-- Witness for C5 at a concrete register operand. -/
theorem ppc_encoders_reg_imm_no_fixup_witness :
    ∃ v, getMachineOpValue Samples.ctxLE ⟨4, [.reg 9]⟩ (.reg 9) = .ok v ∧
      getDirectBrEncoding Samples.ctxLE ⟨4, [.reg 9]⟩ 0 [] =
        .ok (v % 2 ^ 32, []) := by
  obtain ⟨v, hv, h1, -⟩ := ppc_encoders_reg_imm_no_fixup Samples.ctxLE
    ⟨4, [.reg 9]⟩ 0 [] (.reg 9) rfl (Or.inl rfl)
  exact ⟨v, hv, h1⟩

end PPCTheorems


section PPCTheorems2

open PPCEmitter

/-- Reduction of an `Except` bind on a success value. -/
theorem except_bind_ok {ε α β : Type} (a : α) (f : α → Except ε β) :
    (Except.ok a : Except ε α) >>= f = f a := rfl

/-- C10: for a memrix16 operand pair whose displacement is an immediate
multiple of 16, the assertion in `getMemRIX16Encoding` cannot fire and the
encoding is the displacement shifted right by 4 and masked to 12 bits,
combined with the register encoding shifted left by 12 bits. -/
theorem ppc_memrix16_encoding (ctx : EmitterCtx) (MI : MCInst) (OpNo : Nat)
    (Fixups : List MCFixup) (i : Int) (r : Nat)
    (hd : MI.operands[OpNo]? = some (.imm i))
    (hr : MI.operands[OpNo + 1]? = some (.reg r))
    (hdvd : (16 : Int) ∣ i) :
    getMemRIX16Encoding ctx MI OpNo Fixups =
      .ok (((uint64OfInt i >>> 4) &&& 0xFFF) |||
             (ctx.regEncValue MI.opcode r (getOpIdxForMO MI (.reg r)) <<< 12),
           Fixups) := by
  have hmod : i % 16 = 0 := Int.emod_eq_zero_of_dvd hdvd
  have hrenc := ctx.regEncValueLt MI.opcode r (getOpIdxForMO MI (.reg r))
  set renc := ctx.regEncValue MI.opcode r (getOpIdxForMO MI (.reg r)) with hdef
  have h1 : renc <<< 12 < 2 ^ 32 := by
    rw [Nat.shiftLeft_eq]
    omega
  have h2 : (uint64OfInt i >>> 4) &&& 0xFFF < 2 ^ 32 :=
    Nat.and_lt_two_pow _ (by norm_num)
  have h3 : ((uint64OfInt i >>> 4) &&& 0xFFF) ||| renc <<< 12 < 2 ^ 32 :=
    Nat.or_lt_two_pow h2 h1
  have hstep : getMemRIX16Encoding ctx MI OpNo Fixups =
      if i % 16 = 0 then
        Except.ok ((((uint64OfInt i >>> 4) &&& 0xFFF) |||
            (renc <<< 12) % 2 ^ 32) % 2 ^ 32, Fixups)
      else Except.error EmitErr.assertFail := by
    simp only [getMemRIX16Encoding, getOperand, hr, hd, hdef]
    rfl
  rw [hstep, if_pos hmod, Nat.mod_eq_of_lt h1, Nat.mod_eq_of_lt h3]

/-- Witness for C10 at a concrete displacement and base register. -/
theorem ppc_memrix16_encoding_witness :
    getMemRIX16Encoding Samples.ctxLE ⟨3, [.imm 32, .reg 9]⟩ 0 [] =
      .ok (36866, []) := by
  have h := ppc_memrix16_encoding Samples.ctxLE ⟨3, [.imm 32, .reg 9]⟩ 0 []
    32 9 rfl rfl (by norm_num)
  rw [h]
  rfl

/-- C9: `getMemRI34PCRelEncoding` reports a fatal error exactly when the
register-position operand's value, shifted into the bits above 34 of the
`uint64_t` accumulator, is nonzero — for values below `2^30` in magnitude
that is exactly when the operand is nonzero — and for a zero operand it
returns the displacement masked to its low 34 bits with the fixup list
unchanged. -/
theorem ppc_memri34pcrel_fatal_iff (ctx : EmitterCtx) (MI : MCInst)
    (OpNo : Nat) (Fixups : List MCFixup) (rv dv : Int)
    (hr : MI.operands[OpNo + 1]? = some (.imm rv))
    (hd : MI.operands[OpNo]? = some (.imm dv)) :
    (getMemRI34PCRelEncoding ctx MI OpNo Fixups = .error .fatal ↔
       (uint64OfInt rv <<< 34) % 2 ^ 64 ≠ 0) ∧
    (rv.natAbs < 2 ^ 30 →
       (getMemRI34PCRelEncoding ctx MI OpNo Fixups = .error .fatal ↔
          rv ≠ 0)) ∧
    (rv = 0 →
       getMemRI34PCRelEncoding ctx MI OpNo Fixups =
         .ok (uint64OfInt dv &&& 0x3FFFFFFFF, Fixups)) := by
  have hstep : getMemRI34PCRelEncoding ctx MI OpNo Fixups =
      if (uint64OfInt rv <<< 34) % 2 ^ 64 ≠ 0 then Except.error EmitErr.fatal
      else Except.ok ((uint64OfInt dv &&& 0x3FFFFFFFF) |||
             (uint64OfInt rv <<< 34) % 2 ^ 64, Fixups) := by
    simp only [getMemRI34PCRelEncoding, getOperand, hr, hd]
    simp only [except_bind_ok]
    simp only [MCOperand.isImm, Bool.not_true, Bool.false_eq_true, if_false]
    simp only [getMachineOpValue, except_bind_ok]
    rfl
  have hiff : getMemRI34PCRelEncoding ctx MI OpNo Fixups = .error .fatal ↔
      (uint64OfInt rv <<< 34) % 2 ^ 64 ≠ 0 := by
    rw [hstep]
    by_cases hc : (uint64OfInt rv <<< 34) % 2 ^ 64 = 0 <;> simp [hc]
  refine ⟨hiff, fun habs => hiff.trans ?_, fun h0 => ?_⟩
  · simp only [uint64OfInt, Nat.shiftLeft_eq]
    omega
  · subst h0
    rw [hstep]
    norm_num [uint64OfInt]

/-- Witness for C9 at a zero register-position operand. -/
theorem ppc_memri34pcrel_fatal_iff_witness :
    getMemRI34PCRelEncoding Samples.ctxLE ⟨3, [.imm 7, .imm 0]⟩ 0 [] =
      .ok (7, []) := by
  have h := (ppc_memri34pcrel_fatal_iff Samples.ctxLE ⟨3, [.imm 7, .imm 0]⟩
    0 [] 0 7 rfl rfl).2.2 rfl
  rw [h]
  rfl

/-- Length of the byte sequence of one 32-bit word. -/
theorem write32_length (isLE : Bool) (v : Nat) :
    (write32 isLE v).length = 4 := by
  cases isLE <;> rfl

/-- Writing then reading one 32-bit word in a fixed byte order recovers
the value truncated to 32 bits. -/
theorem decode32_write32 (isLE : Bool) (v : Nat) :
    decode32 isLE (write32 isLE v) = v % 2 ^ 32 := by
  have hv : v % 2 ^ 32 < 2 ^ 32 := Nat.mod_lt _ (by norm_num)
  cases isLE <;>
    · simp only [decode32, write32, List.reverse_reverse, if_true, if_false,
        Bool.false_eq_true, ite_true, ite_false]
      omega

/-- C2: `encodeInstruction` writes exactly `getInstSizeInBytes` bytes when
that size is 0, 4, or 8; a 4-byte instruction is one 32-bit word of the
encoding in target byte order, and an 8-byte instruction is two 32-bit
words with the upper half of the 64-bit encoding written first in either
byte order. -/
theorem ppc_encodeInstruction_bytes (ctx : EmitterCtx) (bits : Nat)
    (MI : MCInst)
    (hsz : getInstSizeInBytes ctx MI = 0 ∨ getInstSizeInBytes ctx MI = 4 ∨
           getInstSizeInBytes ctx MI = 8) :
    ∃ out, encodeInstruction ctx bits MI = some out ∧
      out.length = getInstSizeInBytes ctx MI ∧
      (getInstSizeInBytes ctx MI = 4 →
        out = write32 ctx.isLittleEndian bits ∧
        decode32 ctx.isLittleEndian out = bits % 2 ^ 32) ∧
      (getInstSizeInBytes ctx MI = 8 →
        out = write32 ctx.isLittleEndian (bits >>> 32) ++
              write32 ctx.isLittleEndian bits ∧
        decode32 ctx.isLittleEndian (out.take 4) = bits / 2 ^ 32 % 2 ^ 32 ∧
        decode32 ctx.isLittleEndian (out.drop 4) = bits % 2 ^ 32) := by
  rcases hsz with h | h | h <;> rw [encodeInstruction, h]
  · exact ⟨[], rfl, rfl, fun hh => absurd hh (by norm_num),
      fun hh => absurd hh (by norm_num)⟩
  · exact ⟨_, rfl, write32_length _ _, fun _ => ⟨rfl, decode32_write32 _ _⟩,
      fun hh => absurd hh (by norm_num)⟩
  · refine ⟨_, rfl, ?_, fun hh => absurd hh (by norm_num),
      fun _ => ⟨rfl, ?_, ?_⟩⟩
    · rw [List.length_append, write32_length, write32_length]
    · rw [List.take_left' (write32_length _ _), decode32_write32,
        Nat.shiftRight_eq_div_pow]
    · rw [List.drop_left' (write32_length _ _), decode32_write32]

/-- Witness for C2 at an 8-byte (prefixed) instruction on the little-endian
target. -/
theorem ppc_encodeInstruction_bytes_witness :
    ∃ out, encodeInstruction Samples.ctxLE 81985529216486895 ⟨8, []⟩ =
        some out ∧ out.length = getInstSizeInBytes Samples.ctxLE ⟨8, []⟩ := by
  obtain ⟨out, h1, h2, -⟩ := ppc_encodeInstruction_bytes Samples.ctxLE
    81985529216486895 ⟨8, []⟩ (Or.inr (Or.inr rfl))
  exact ⟨out, h1, h2⟩

end PPCTheorems2

section VETheorems

open VEPrinter

/-- C6: an immediate operand printed by the VE printer's `printOperand`
(whose opcode switch has only the default case) is shown as the signed
32-bit integer congruent to the operand value modulo `2^32`, and
`printRegName` prints a `%` character followed by the register's name in
lower case. -/
theorem ve_printOperand_imm32_and_regname (env : VEEnv) (MI : VEInst)
    (opNum : Nat) (i : Int) (r : Nat)
    (h : MI.operands[opNum]? = some (.imm i)) :
    (∃ s : Int, printOperand env MI opNum = some (toString s) ∧
       s % 2 ^ 32 = i % 2 ^ 32 ∧ -2 ^ 31 ≤ s ∧ s < 2 ^ 31) ∧
    printRegName env r = "%" ++ (env.regName r).toLower ∧
    (printRegName env r).data.head? = some '%' := by
  refine ⟨⟨toInt32 i, ?_, ?_, ?_, ?_⟩, rfl, rfl⟩
  · simp [printOperand, h]
  · simp only [toInt32]
    omega
  · simp only [toInt32]
    omega
  · simp only [toInt32]
    omega

/-- Witness for C6 at a concrete immediate above `2^32` and register 3. -/
theorem ve_printOperand_imm32_and_regname_witness :
    ∃ s : Int, printOperand Samples.env0 ⟨1, [.imm (2 ^ 40 + 5)]⟩ 0 =
        some (toString s) ∧ s % 2 ^ 32 = (2 ^ 40 + 5) % 2 ^ 32 ∧
      -2 ^ 31 ≤ s ∧ s < 2 ^ 31 := by
  exact (ve_printOperand_imm32_and_regname Samples.env0
    ⟨1, [.imm (2 ^ 40 + 5)]⟩ 0 (2 ^ 40 + 5) 3 rfl).1

end VETheorems

section PipelineTheorems

/-- C7: the two fragments do not exchange data.  Running the PowerPC
emitter does not change the VE printer's output, running the printer does
not change the emitter's byte stream or instruction counter, and each
operation is a deterministic function of its own inputs: equal printer
states (resp. emitter states) yield equal outputs. -/
theorem printer_emitter_noninterference
    (env : VEPrinter.VEEnv) (vMI : VEPrinter.VEInst) (addr : Nat)
    (annot : String) (ctx : PPCEmitter.EmitterCtx) (bits : Nat)
    (pMI : PPCEmitter.MCInst) (s s1 s2 : Pipeline.ToolState) :
    (Pipeline.runPrint env vMI addr annot
        (Pipeline.runEmit ctx bits pMI s)).outAsm =
      (Pipeline.runPrint env vMI addr annot s).outAsm ∧
    (Pipeline.runEmit ctx bits pMI
        (Pipeline.runPrint env vMI addr annot s)).outBytes =
      (Pipeline.runEmit ctx bits pMI s).outBytes ∧
    (Pipeline.runEmit ctx bits pMI
        (Pipeline.runPrint env vMI addr annot s)).countEmitted =
      (Pipeline.runEmit ctx bits pMI s).countEmitted ∧
    (s1.outAsm = s2.outAsm →
      (Pipeline.runPrint env vMI addr annot s1).outAsm =
        (Pipeline.runPrint env vMI addr annot s2).outAsm) ∧
    (s1.outBytes = s2.outBytes →
      (Pipeline.runEmit ctx bits pMI s1).outBytes =
        (Pipeline.runEmit ctx bits pMI s2).outBytes) := by
  refine ⟨?_, ?_, ?_, ?_, ?_⟩
  · unfold Pipeline.runEmit
    cases PPCEmitter.encodeInstruction ctx bits pMI <;> rfl
  · unfold Pipeline.runEmit
    cases PPCEmitter.encodeInstruction ctx bits pMI <;> rfl
  · unfold Pipeline.runEmit
    cases PPCEmitter.encodeInstruction ctx bits pMI <;> rfl
  · intro h12
    simp [Pipeline.runPrint, h12]
  · intro h12
    unfold Pipeline.runEmit
    cases PPCEmitter.encodeInstruction ctx bits pMI <;> simp [h12]

/-- Witness for C7 at concrete printer and emitter states. -/
theorem printer_emitter_noninterference_witness :
    (Pipeline.runPrint Samples.env0 ⟨1, []⟩ 0 ""
        (Pipeline.runEmit Samples.ctxLE 5 ⟨4, []⟩ ⟨0, [], []⟩)).outAsm =
      (Pipeline.runPrint Samples.env0 ⟨1, []⟩ 0 "" ⟨0, [], []⟩).outAsm ∧
    (Pipeline.runEmit Samples.ctxLE 5 ⟨4, []⟩ ⟨0, [], [""]⟩).outBytes =
      (Pipeline.runEmit Samples.ctxLE 5 ⟨4, []⟩ ⟨9, [], []⟩).outBytes := by
  have h := printer_emitter_noninterference Samples.env0 ⟨1, []⟩ 0 ""
    Samples.ctxLE 5 ⟨4, []⟩ ⟨0, [], []⟩ ⟨0, [], [""]⟩ ⟨9, [], []⟩
  exact ⟨h.1, h.2.2.2.2 rfl⟩

end PipelineTheorems

section LoopTheorems

open LoopToStd

/-- `mapLast` preserves length. -/
theorem mapLast_length (g : Block → Block) :
    ∀ l : List Block, (mapLast g l).length = l.length
  | [] => rfl
  | [_] => rfl
  | b :: b2 :: bs => by
      simp only [mapLast, List.length_cons, mapLast_length g (b2 :: bs)]

/-- `mapLast` leaves every element but the last unchanged. -/
theorem mapLast_getElem?_of_lt (g : Block → Block) :
    ∀ (l : List Block) (i : Nat), i + 1 < l.length →
      (mapLast g l)[i]? = l[i]?
  | [], _, h => by simp at h
  | [_], i, h => by simp at h
  | b :: b2 :: bs, 0, _ => by
      rw [show mapLast g (b :: b2 :: bs) = b :: mapLast g (b2 :: bs) from rfl,
        List.getElem?_cons_zero, List.getElem?_cons_zero]
  | b :: b2 :: bs, i + 1, h => by
      rw [show mapLast g (b :: b2 :: bs) = b :: mapLast g (b2 :: bs) from rfl,
        List.getElem?_cons_succ, List.getElem?_cons_succ]
      exact mapLast_getElem?_of_lt g (b2 :: bs) i (by simpa using h)

/-- `mapLast` rewrites exactly the last element. -/
theorem mapLast_getLast? (g : Block → Block) :
    ∀ l : List Block, (mapLast g l).getLast? = l.getLast?.map g
  | [] => rfl
  | [_] => rfl
  | b :: b2 :: bs => by
      have ih := mapLast_getLast? g (b2 :: bs)
      cases hX : mapLast g (b2 :: bs) with
      | nil =>
          have hlen := mapLast_length g (b2 :: bs)
          rw [hX] at hlen
          simp at hlen
      | cons y ys =>
          rw [show mapLast g (b :: b2 :: bs) = b :: mapLast g (b2 :: bs)
                from rfl,
              hX, List.getLast?_cons_cons, ← hX, ih,
              List.getLast?_cons_cons]

/-- Retargeting the successors of a terminator leaves its operands
unchanged. -/
theorem Term.operands_retarget (f : Nat → Nat) :
    ∀ t : Term, (t.retarget f).operands = t.operands
  | .br _ _ => rfl
  | .condBr _ _ _ _ _ => rfl
  | .yield _ => rfl
  | .ret _ => rfl

end LoopTheorems

section LoopTheorems2

open LoopToStd

/-- Last element of a region built as two leading blocks, a body, and an
appended continuation block. -/
theorem getLast_cons_cons_concat (x y e : Block) (l : List Block) :
    (x :: y :: (l ++ [e])).getLast? = some e := by
  rw [show x :: y :: (l ++ [e]) = (x :: y :: l) ++ [e] from rfl,
    List.getLast?_concat]

/-- Position of the (rewritten) last element of a mapped body list. -/
theorem body_last_lookup (g h : Block → Block) (l : List Block)
    (hne : l ≠ []) :
    (mapLast g (l.map h))[l.length - 1]? = some (g (h (l.getLast hne))) := by
  have hlen : (mapLast g (l.map h)).length = l.length := by
    rw [mapLast_length]
    simp
  have h2 := List.getLast?_eq_getElem? (mapLast g (l.map h))
  rw [hlen] at h2
  rw [← h2, mapLast_getLast?, List.getLast?_map,
    List.getLast?_eq_getLast _ hne]
  rfl

/-- C3: `ForLowering` produces a CFG whose condition block takes the
induction variable followed by the loop-carried values as arguments,
compares the induction variable to the upper bound with a signed
less-than, and conditionally branches to the first body block (position
2) or the continuation block (last position); the last body block gains
an addition of the step to the induction variable and an unconditional
branch back to the condition block carrying the stepped value and the
loop terminator's operands; and the `loop.for` results are replaced by
the condition block's arguments minus the induction variable. -/
theorem loop_forLowering_cfg_shape
    (pArgs : List Nat) (pre post : List Op) (pTerm : Term)
    (f : ForOp) (fresh : Nat) (B0 : Block) (rest : List Block)
    (iv : Nat) (carried : List Nat)
    (hreg : f.region = B0 :: rest)
    (hargs : B0.args = iv :: carried)
    (hres : f.results.length = carried.length) :
    ∃ R, forLowering pArgs pre post pTerm f fresh = some (R, carried) ∧
      R.length = f.region.length + 3 ∧
      R[0]? = some ⟨pArgs, [], pre,
        Term.br 1 (f.lowerBound :: f.iterOperands)⟩ ∧
      R[1]? = some ⟨iv :: carried, B0.argTypes,
        [Op.cmpi (fresh + 1) CmpIPredicate.slt iv f.upperBound],
        Term.condBr (fresh + 1) 2 [] (f.region.length + 2) []⟩ ∧
      (∃ lb, (Block.mk [] [] B0.ops B0.term :: rest).getLast? = some lb ∧
        R[f.region.length + 1]? = some ⟨lb.args, lb.argTypes,
          lb.ops ++ [Op.addi fresh iv f.step],
          Term.br 1 (fresh :: lb.term.operands)⟩) ∧
      R.getLast? = some ⟨[], [],
        post.map (Op.subst (substOf f.results carried)),
        pTerm.subst (substOf f.results carried)⟩ := by
  have hn : f.region.length = rest.length + 1 := by rw [hreg]; rfl
  simp only [forLowering, hreg, hargs]
  rw [if_pos hres]
  refine ⟨_, rfl, ?_, ?_, ?_, ?_, ?_⟩
  · simp [mapLast_length, hn]
  · rfl
  · simp [hn]
  · refine ⟨(Block.mk [] [] B0.ops B0.term :: rest).getLast
      (List.cons_ne_nil _ _), List.getLast?_eq_getLast _ _, ?_⟩
    have hb := body_last_lookup
      (fun b => { b with ops := b.ops ++ [Op.addi fresh iv f.step], term := Term.br 1 (fresh :: b.term.operands) })
      (fun b => { b with term := Term.retarget forRetarget b.term })
      (Block.mk [] [] B0.ops B0.term :: rest) (List.cons_ne_nil _ _)
    simp only [List.length_cons, Nat.add_sub_cancel] at hb
    simp only [List.length_cons]
    rw [List.getElem?_cons_succ, List.getElem?_cons_succ,
      List.getElem?_append_left (by rw [mapLast_length]; simp), hb]
    simp [Term.operands_retarget]
  · exact getLast_cons_cons_concat _ _ _ _

/-- Witness for C3 at a one-block loop body with one carried value. -/
theorem loop_forLowering_cfg_shape_witness :
    ∃ R, LoopToStd.forLowering [1, 2] [] [] (Term.ret [50])
        ⟨10, 11, 12, [13], [50], [⟨[100, 101], [0, 0],
          [Op.generic 9 200 [100, 101]], Term.yield [200]⟩]⟩ 900 =
      some (R, [101]) ∧ R.length = 4 := by
  obtain ⟨R, h1, h2, -⟩ := loop_forLowering_cfg_shape [1, 2] [] []
    (Term.ret [50])
    ⟨10, 11, 12, [13], [50], [⟨[100, 101], [0, 0],
      [Op.generic 9 200 [100, 101]], Term.yield [200]⟩]⟩ 900
    ⟨[100, 101], [0, 0], [Op.generic 9 200 [100, 101]], Term.yield [200]⟩ []
    100 [101] rfl rfl rfl
  exact ⟨R, h1, by simpa using h2⟩

end LoopTheorems2

section LoopTheorems3

open LoopToStd

/-- Any list after an initial block and an interior part ends the region. -/
theorem getLast_cons_append_ne_nil (x : Block) (l1 l2 : List Block)
    (h : l2 ≠ []) : (x :: (l1 ++ l2)).getLast? = l2.getLast? := by
  rw [show x :: (l1 ++ l2) = (x :: l1) ++ l2 from rfl,
    List.getLast?_append_of_ne_nil _ h]

/-- The substitution for an op with no results is the identity. -/
theorem substOf_nil (news : List Nat) : substOf [] news = fun v => v := rfl

/-- Identity substitution leaves an operation unchanged. -/
theorem opSubstIdentity (o : Op) : Op.subst (fun v => v) o = o := by
  cases o <;> simp [Op.subst]

/-- Identity substitution leaves a terminator unchanged. -/
theorem termSubstIdentity (t : Term) : Term.subst (fun v => v) t = t := by
  cases t <;> simp [Term.subst]

/-- Substituting for no results leaves the trailing operations unchanged. -/
theorem map_subst_nil (l : List Op) (news : List Nat) :
    l.map (Op.subst (substOf [] news)) = l := by
  rw [substOf_nil, show Op.subst (fun v => v) = id from funext opSubstIdentity,
    List.map_id]

/-- Substituting for no results leaves the terminator unchanged. -/
theorem term_subst_nil (t : Term) (news : List Nat) :
    t.subst (substOf [] news) = t := by
  rw [substOf_nil]
  exact termSubstIdentity t

/-- C4: `IfLowering` uses the block split off after the `loop.if` as the
continuation block when the op returns no values; when it returns values
it creates a new block whose arguments have exactly the op's result types
and that unconditionally branches to the continuation block, and replaces
the op's results with that block's arguments.  The `then`/`else` region
terminators become unconditional branches to that target carrying the
terminator operands, and the false edge of the conditional branch goes to
the first else block when an else region exists and otherwise directly to
the continuation target. -/
theorem loop_ifLowering_cfg_shape
    (pArgs : List Nat) (pre post : List Op) (pTerm : Term)
    (i : IfOp) (fresh : Nat) (T0 : Block) (trest : List Block)
    (hthen : i.thenRegion = T0 :: trest)
    (hlen : i.results.length = i.resultTypes.length) :
    ∃ R repl, ifLowering pArgs pre post pTerm i fresh = some (R, repl) ∧
      R[0]? = some ⟨pArgs, [], pre,
        Term.condBr i.condition 1 [] (i.thenRegion.length + 1) []⟩ ∧
      (∃ tl, i.thenRegion.getLast? = some tl ∧
        R[i.thenRegion.length]? = some ⟨tl.args, tl.argTypes, tl.ops,
          Term.br (i.thenRegion.length + i.elseRegion.length + 1)
            tl.term.operands⟩) ∧
      (∀ hne : i.elseRegion ≠ [],
        R[i.thenRegion.length + i.elseRegion.length]? =
          some ⟨(i.elseRegion.getLast hne).args,
            (i.elseRegion.getLast hne).argTypes,
            (i.elseRegion.getLast hne).ops,
            Term.br (i.thenRegion.length + i.elseRegion.length + 1)
              (i.elseRegion.getLast hne).term.operands⟩) ∧
      (i.results = [] →
        repl = [] ∧
        R.length = i.thenRegion.length + i.elseRegion.length + 2 ∧
        R[i.thenRegion.length + i.elseRegion.length + 1]? =
          some ⟨[], [], post, pTerm⟩ ∧
        R.getLast? = some ⟨[], [], post, pTerm⟩) ∧
      (i.results ≠ [] →
        R.length = i.thenRegion.length + i.elseRegion.length + 3 ∧
        R[i.thenRegion.length + i.elseRegion.length + 1]? =
          some ⟨(List.range i.resultTypes.length).map (fun k => fresh + k),
            i.resultTypes, [],
            Term.br (i.thenRegion.length + i.elseRegion.length + 2) []⟩ ∧
        repl = (List.range i.resultTypes.length).map (fun k => fresh + k) ∧
        R.getLast? = some ⟨[], [],
          post.map (Op.subst (substOf i.results repl)),
          pTerm.subst (substOf i.results repl)⟩) := by
  simp only [ifLowering, hthen]
  rw [if_pos hlen]
  cases hres : i.results with
  | nil =>
    cases hels : i.elseRegion with
    | nil =>
      simp only [List.isEmpty_nil, List.length_nil, List.map_nil,
        List.length_cons, if_true, ite_true, List.nil_append,
        List.append_nil, mapLast, Nat.add_zero]
      refine ⟨_, _, rfl, ?_, ?_, ?_, ?_, ?_⟩
      · rw [List.getElem?_cons_zero]
      · refine ⟨(T0 :: trest).getLast (List.cons_ne_nil _ _),
          List.getLast?_eq_getLast _ _, ?_⟩
        have hb := body_last_lookup
          (fun b => { b with term := Term.br (trest.length + 1 + 1) b.term.operands })
          (fun b => { b with term := Term.retarget (fun x => x + 1) b.term })
          (T0 :: trest) (List.cons_ne_nil _ _)
        simp only [List.length_cons, Nat.add_sub_cancel] at hb
        rw [List.getElem?_cons_succ,
          List.getElem?_append_left (by rw [mapLast_length]; simp), hb]
        simp [Term.operands_retarget]
      · exact fun hne => absurd rfl hne
      · intro _
        refine ⟨rfl, ?_, ?_, ?_⟩
        · simp [mapLast_length]
        · rw [List.getElem?_cons_succ,
            List.getElem?_append_right (by rw [mapLast_length]; simp),
            mapLast_length]
          simp [map_subst_nil, term_subst_nil]
        · rw [getLast_cons_append_ne_nil _ _ _ (by simp)]
          simp [map_subst_nil, term_subst_nil]
      · exact fun hne => absurd rfl hne
    | cons E0 erest =>
      simp only [List.isEmpty_nil, List.isEmpty_cons, List.length_cons,
        if_true, ite_true, Bool.false_eq_true, if_false, ite_false, mapLast,
        Nat.add_zero]
      refine ⟨_, _, rfl, ?_, ?_, ?_, ?_, ?_⟩
      · rw [List.getElem?_cons_zero]
      · refine ⟨(T0 :: trest).getLast (List.cons_ne_nil _ _),
          List.getLast?_eq_getLast _ _, ?_⟩
        have hb := body_last_lookup
          (fun b => { b with term := Term.br (trest.length + 1 + (erest.length + 1) + 1) b.term.operands })
          (fun b => { b with term := Term.retarget (fun x => x + 1) b.term })
          (T0 :: trest) (List.cons_ne_nil _ _)
        simp only [List.length_cons, Nat.add_sub_cancel] at hb
        rw [List.getElem?_cons_succ,
          List.getElem?_append_left (by simp only [List.length_append,
            mapLast_length, List.length_map, List.length_cons]; omega),
          List.getElem?_append_left (by rw [mapLast_length]; simp), hb]
        simp [Term.operands_retarget]
      · intro hne
        rw [show trest.length + 1 + (erest.length + 1) =
              trest.length + 1 + erest.length + 1 from by omega]
        have hb2 := body_last_lookup
          (fun b => { b with term := Term.br (trest.length + 1 + erest.length + 1 + 1) b.term.operands })
          (fun b => { b with term := Term.retarget (fun x => x + (trest.length + 1) + 1) b.term })
          (E0 :: erest) (List.cons_ne_nil _ _)
        simp only [List.length_cons, Nat.add_sub_cancel] at hb2
        rw [List.getElem?_cons_succ,
          List.getElem?_append_left (by simp only [List.length_append,
            mapLast_length, List.length_map, List.length_cons]; omega),
          List.getElem?_append_right (by simp only [mapLast_length,
            List.length_map, List.length_cons]; omega),
          mapLast_length]
        simp only [List.length_map, List.length_cons]
        rw [show trest.length + 1 + erest.length - (trest.length + 1) =
              erest.length from by omega, hb2]
        simp [Term.operands_retarget]
      · intro _
        refine ⟨rfl, ?_, ?_, ?_⟩
        · simp only [List.length_cons, List.length_append, mapLast_length,
            List.length_map, List.length_nil]
        · rw [List.getElem?_cons_succ,
            List.getElem?_append_right (by simp only [List.length_append,
              mapLast_length, List.length_map, List.length_cons]; omega),
            List.length_append, mapLast_length, mapLast_length]
          simp only [List.length_map, List.length_cons, Nat.sub_self]
          simp [map_subst_nil, term_subst_nil]
        · rw [getLast_cons_append_ne_nil _ _ _ (by simp)]
          simp [map_subst_nil, term_subst_nil]
      · exact fun hne => absurd rfl hne
  | cons q qs =>
    cases hels : i.elseRegion with
    | nil =>
      simp only [List.isEmpty_nil, List.isEmpty_cons, List.length_nil,
        List.map_nil, List.length_cons, if_true, ite_true,
        Bool.false_eq_true, if_false, ite_false, List.nil_append,
        List.append_nil, mapLast, Nat.add_zero]
      refine ⟨_, _, rfl, ?_, ?_, ?_, ?_, ?_⟩
      · rw [List.getElem?_cons_zero]
      · refine ⟨(T0 :: trest).getLast (List.cons_ne_nil _ _),
          List.getLast?_eq_getLast _ _, ?_⟩
        have hb := body_last_lookup
          (fun b => { b with term := Term.br (trest.length + 1 + 1) b.term.operands })
          (fun b => { b with term := Term.retarget (fun x => x + 1) b.term })
          (T0 :: trest) (List.cons_ne_nil _ _)
        simp only [List.length_cons, Nat.add_sub_cancel] at hb
        rw [List.getElem?_cons_succ,
          List.getElem?_append_left (by rw [mapLast_length]; simp), hb]
        simp [Term.operands_retarget]
      · exact fun hne => absurd rfl hne
      · exact fun h => absurd h (List.cons_ne_nil q qs)
      · intro _
        refine ⟨?_, ?_, rfl, ?_⟩
        · simp only [List.length_cons, List.length_append, mapLast_length,
            List.length_map, List.length_nil]
        · rw [List.getElem?_cons_succ,
            List.getElem?_append_right (by rw [mapLast_length]; simp),
            mapLast_length]
          simp only [List.length_map, List.length_cons, Nat.sub_self]
          rw [List.getElem?_cons_zero]
        · rw [getLast_cons_append_ne_nil _ _ _ (by simp)]
          simp
    | cons E0 erest =>
      simp only [List.isEmpty_nil, List.isEmpty_cons, List.length_cons,
        if_true, ite_true, Bool.false_eq_true, if_false, ite_false, mapLast,
        Nat.add_zero]
      refine ⟨_, _, rfl, ?_, ?_, ?_, ?_, ?_⟩
      · rw [List.getElem?_cons_zero]
      · refine ⟨(T0 :: trest).getLast (List.cons_ne_nil _ _),
          List.getLast?_eq_getLast _ _, ?_⟩
        have hb := body_last_lookup
          (fun b => { b with term := Term.br (trest.length + 1 + (erest.length + 1) + 1) b.term.operands })
          (fun b => { b with term := Term.retarget (fun x => x + 1) b.term })
          (T0 :: trest) (List.cons_ne_nil _ _)
        simp only [List.length_cons, Nat.add_sub_cancel] at hb
        rw [List.getElem?_cons_succ,
          List.getElem?_append_left (by simp only [List.length_append,
            mapLast_length, List.length_map, List.length_cons]; omega),
          List.getElem?_append_left (by rw [mapLast_length]; simp), hb]
        simp [Term.operands_retarget]
      · intro hne
        rw [show trest.length + 1 + (erest.length + 1) =
              trest.length + 1 + erest.length + 1 from by omega]
        have hb2 := body_last_lookup
          (fun b => { b with term := Term.br (trest.length + 1 + erest.length + 1 + 1) b.term.operands })
          (fun b => { b with term := Term.retarget (fun x => x + (trest.length + 1) + 1) b.term })
          (E0 :: erest) (List.cons_ne_nil _ _)
        simp only [List.length_cons, Nat.add_sub_cancel] at hb2
        rw [List.getElem?_cons_succ,
          List.getElem?_append_left (by simp only [List.length_append,
            mapLast_length, List.length_map, List.length_cons]; omega),
          List.getElem?_append_right (by simp only [mapLast_length,
            List.length_map, List.length_cons]; omega),
          mapLast_length]
        simp only [List.length_map, List.length_cons]
        rw [show trest.length + 1 + erest.length - (trest.length + 1) =
              erest.length from by omega, hb2]
        simp [Term.operands_retarget]
      · exact fun h => absurd h (List.cons_ne_nil q qs)
      · intro _
        refine ⟨?_, ?_, rfl, ?_⟩
        · simp only [List.length_cons, List.length_append, mapLast_length,
            List.length_map, List.length_nil]
        · rw [List.getElem?_cons_succ,
            List.getElem?_append_right (by simp only [List.length_append,
              mapLast_length, List.length_map, List.length_cons]; omega),
            List.length_append, mapLast_length, mapLast_length]
          simp only [List.length_map, List.length_cons, Nat.sub_self]
          rw [List.getElem?_cons_zero]
        · rw [getLast_cons_append_ne_nil _ _ _ (by simp)]
          simp

end LoopTheorems3

/-- Witness for C4 at a one-result `loop.if` with both regions present. -/
theorem loop_ifLowering_cfg_shape_witness :
    ∃ R repl, LoopToStd.ifLowering [1] [] [LoopToStd.Op.generic 3 500 [60]]
        (LoopToStd.Term.ret [60])
        ⟨40, [60], [7], [⟨[], [], [LoopToStd.Op.generic 1 400 []],
          LoopToStd.Term.yield [400]⟩], [⟨[], [],
          [LoopToStd.Op.generic 2 401 []], LoopToStd.Term.yield [401]⟩]⟩
        900 = some (R, repl) ∧ R.length = 5 ∧ repl = [900] := by
  obtain ⟨R, repl, h1, -, -, -, -, h5⟩ := loop_ifLowering_cfg_shape
    [1] [] [LoopToStd.Op.generic 3 500 [60]] (LoopToStd.Term.ret [60])
    ⟨40, [60], [7], [⟨[], [], [LoopToStd.Op.generic 1 400 []],
      LoopToStd.Term.yield [400]⟩], [⟨[], [],
      [LoopToStd.Op.generic 2 401 []], LoopToStd.Term.yield [401]⟩]⟩
    900 ⟨[], [], [LoopToStd.Op.generic 1 400 []],
      LoopToStd.Term.yield [400]⟩ [] rfl rfl
  obtain ⟨hlen5, -, hrepl, -⟩ := h5 (by simp)
  exact ⟨R, repl, h1, by simpa using hlen5, by simpa using hrepl⟩

section LoopTheorems4

open LoopToStd

/-- Retargeting maps the successor list. -/
theorem Term.dests_retarget (f : Nat → Nat) :
    ∀ t : Term, (t.retarget f).dests = t.dests.map f
  | .br _ _ => rfl
  | .condBr _ _ _ _ _ => rfl
  | .yield _ => rfl
  | .ret _ => rfl

/-- Value substitution does not change the successor list. -/
theorem Term.dests_subst (f : Nat → Nat) :
    ∀ t : Term, (t.subst f).dests = t.dests
  | .br _ _ => rfl
  | .condBr _ _ _ _ _ => rfl
  | .yield _ => rfl
  | .ret _ => rfl

/-- A region-internal terminator has successors, all inside the region. -/
theorem internal_dests {n : Nat} {t : Term} (h : t.internalWithin n) :
    t.dests ≠ [] ∧ ∀ d ∈ t.dests, d < n := by
  cases t with
  | br d xs => exact ⟨by simp [Term.dests], by simpa [Term.dests] using h⟩
  | condBr c td ta fd fa =>
      refine ⟨by simp [Term.dests], ?_⟩
      intro d hd
      rcases h with ⟨h1, h2⟩
      rcases List.mem_cons.mp hd with rfl | hd2
      · exact h1
      · simpa using Or.elim (List.mem_cons.mp hd2) (fun he => he ▸ h2)
          (fun he => absurd he (by simp))
  | yield xs => exact absurd h (by simp [Term.internalWithin])
  | ret xs => exact absurd h (by simp [Term.internalWithin])

/-- Every block of `mapLast g l` is an untouched non-last block of `l` or
the image under `g` of the last block. -/
theorem mem_mapLast (g : Block → Block) :
    ∀ (l : List Block) (b : Block), b ∈ mapLast g l →
      b ∈ l.dropLast ∨ ∃ x, l.getLast? = some x ∧ b = g x
  | [], b, h => by simp [mapLast] at h
  | [a], b, h => by
      simp only [mapLast, List.mem_singleton] at h
      exact Or.inr ⟨a, rfl, h⟩
  | a :: a2 :: l, b, h => by
      rw [show mapLast g (a :: a2 :: l) = a :: mapLast g (a2 :: l)
        from rfl] at h
      rcases List.mem_cons.mp h with h1 | h2
      · rw [List.dropLast_cons_of_ne_nil (List.cons_ne_nil _ _)]
        exact Or.inl (h1 ▸ List.mem_cons_self _ _)
      · rcases mem_mapLast g (a2 :: l) b h2 with h3 | ⟨x, hx1, hx2⟩
        · rw [List.dropLast_cons_of_ne_nil (List.cons_ne_nil _ _)]
          exact Or.inl (List.mem_cons_of_mem _ h3)
        · exact Or.inr ⟨x, by rw [List.getLast?_cons_cons]; exact hx1, hx2⟩

end LoopTheorems4

section LoopTheorems5

open LoopToStd

/-- `dropLast` commutes with `map`. -/
theorem dropLast_map (f : Block → Block) :
    ∀ l : List Block, (l.map f).dropLast = l.dropLast.map f
  | [] => rfl
  | [_] => rfl
  | a :: a2 :: l => by
      have ih := dropLast_map f (a2 :: l)
      simp only [List.map_cons] at ih ⊢
      rw [List.dropLast_cons_of_ne_nil (List.cons_ne_nil _ _),
        List.dropLast_cons_of_ne_nil (List.cons_ne_nil _ _), List.map_cons,
        ← ih]

/-- The rewritten region of `ForLowering` is a single-entry, single-exit
block list. -/
theorem forLowering_entry_exit
    (pArgs : List Nat) (pre post : List Op) (pTerm : Term)
    (f : ForOp) (fresh : Nat) (B0 : Block) (rest : List Block)
    (iv : Nat) (carried : List Nat)
    (hreg : f.region = B0 :: rest)
    (hargs : B0.args = iv :: carried)
    (hres : f.results.length = carried.length)
    (hbody : ∀ b ∈ f.region.dropLast,
      b.term.internalWithin f.region.length)
    (hexit : pTerm.dests = []) :
    ∃ R, forLowering pArgs pre post pTerm f fresh = some (R, carried) ∧
      singleEntryExit R := by
  have hlen : f.region.length = rest.length + 1 := by rw [hreg]; rfl
  have hbody' : ∀ b ∈ f.region.dropLast,
      b.term.internalWithin (rest.length + 1) := by
    intro b hb
    have := hbody b hb
    rwa [hlen] at this
  have htrans : ∀ x ∈ (Block.mk [] [] B0.ops B0.term :: rest).dropLast,
      x.term.internalWithin (rest.length + 1) := by
    intro x hx
    cases rest with
    | nil => simp at hx
    | cons r rs =>
        rw [List.dropLast_cons_of_ne_nil (List.cons_ne_nil _ _)] at hx
        have hdrop : f.region.dropLast = B0 :: (r :: rs).dropLast := by
          rw [hreg, List.dropLast_cons_of_ne_nil (List.cons_ne_nil _ _)]
        rcases List.mem_cons.mp hx with rfl | hx2
        · exact hbody' B0 (by rw [hdrop]; exact List.mem_cons_self _ _)
        · exact hbody' x (by rw [hdrop]; exact List.mem_cons_of_mem _ hx2)
  simp only [forLowering, hreg, hargs]
  rw [if_pos hres]
  refine ⟨_, rfl, ?_⟩
  simp only [singleEntryExit]
  refine ⟨?_, ?_, ?_⟩
  · -- every successor is strictly between the entry and the region size
    intro b hb
    simp only [List.length_cons, List.length_append, mapLast_length,
      List.length_map, List.length_nil]
    rcases List.mem_cons.mp hb with rfl | hb1
    · intro d hd
      simp [Term.dests] at hd
      omega
    rcases List.mem_cons.mp hb1 with rfl | hb2
    · intro d hd
      simp [Term.dests] at hd
      rcases hd with rfl | rfl <;> omega
    rcases List.mem_append.mp hb2 with hbm | hend
    · rcases mem_mapLast _ _ _ hbm with hint | ⟨x, hx1, hx2⟩
      · rw [dropLast_map] at hint
        rcases List.mem_map.mp hint with ⟨x, hx, rfl⟩
        intro d hd
        simp only [Term.dests_retarget, List.mem_map] at hd
        rcases hd with ⟨j, hj, rfl⟩
        have := (internal_dests (htrans x hx)).2 j hj
        simp only [forRetarget]
        split <;> omega
      · intro d hd
        rw [hx2] at hd
        simp [Term.dests] at hd
        omega
    · intro d hd
      rcases List.mem_singleton.mp hend with rfl
      rw [Term.dests_subst, hexit] at hd
      simp at hd
  · -- every block except the continuation branches somewhere
    intro b hb
    rw [List.dropLast_cons_of_ne_nil (by simp),
      List.dropLast_cons_of_ne_nil (by simp), List.dropLast_concat] at hb
    rcases List.mem_cons.mp hb with rfl | hb1
    · simp [Term.dests]
    rcases List.mem_cons.mp hb1 with rfl | hb2
    · simp [Term.dests]
    rcases mem_mapLast _ _ _ hb2 with hint | ⟨x, hx1, hx2⟩
    · rw [dropLast_map] at hint
      rcases List.mem_map.mp hint with ⟨x, hx, rfl⟩
      have h1 := (internal_dests (htrans x hx)).1
      simp only [Term.dests_retarget]
      simpa using h1
    · rw [hx2]
      simp [Term.dests]
  · -- the continuation block is last and exits the region
    refine ⟨_, getLast_cons_cons_concat _ _ _ _, ?_⟩
    rw [Term.dests_subst, hexit]

/-- The rewritten region of `IfLowering` is a single-entry, single-exit
block list. -/
theorem ifLowering_entry_exit
    (pArgs : List Nat) (pre post : List Op) (pTerm : Term)
    (i : IfOp) (fresh : Nat) (T0 : Block) (trest : List Block)
    (hthen : i.thenRegion = T0 :: trest)
    (hlen : i.results.length = i.resultTypes.length)
    (hthenI : ∀ b ∈ i.thenRegion.dropLast,
      b.term.internalWithin i.thenRegion.length)
    (helseI : ∀ b ∈ i.elseRegion.dropLast,
      b.term.internalWithin i.elseRegion.length)
    (hexit : pTerm.dests = []) :
    ∃ R repl, ifLowering pArgs pre post pTerm i fresh = some (R, repl) ∧
      singleEntryExit R := by
  have ht : i.thenRegion.length = trest.length + 1 := by rw [hthen]; rfl
  have hthenI' : ∀ b ∈ (T0 :: trest).dropLast,
      b.term.internalWithin (trest.length + 1) := by
    intro b hb
    have := hthenI b (by rw [hthen]; exact hb)
    rwa [ht] at this
  simp only [ifLowering, hthen]
  rw [if_pos hlen]
  cases hre : i.results.isEmpty with
  | true =>
    simp only [if_true, ite_true]
    refine ⟨_, _, rfl, ?_, ?_, ?_⟩
    · intro b hb
      simp only [List.length_cons, List.length_append, mapLast_length,
        List.length_map, List.length_nil]
      rcases List.mem_cons.mp hb with rfl | hb1
      · intro d hd
        simp only [Term.dests, List.mem_cons, List.not_mem_nil, or_false] at hd
        rcases hd with rfl | rfl
        · omega
        · split <;> omega
      rcases List.mem_append.mp hb1 with hb2 | hend
      rcases List.mem_append.mp hb2 with hbt | hbe
      · rcases mem_mapLast _ _ _ hbt with hint | ⟨x, hx1, hx2⟩
        · rw [dropLast_map] at hint
          rcases List.mem_map.mp hint with ⟨x, hx, rfl⟩
          intro d hd
          simp only [Term.dests_retarget, List.mem_map] at hd
          rcases hd with ⟨j, hj, rfl⟩
          have := (internal_dests (hthenI' x hx)).2 j hj
          omega
        · intro d hd
          rw [hx2] at hd
          simp [Term.dests] at hd
          omega
      · rcases mem_mapLast _ _ _ hbe with hint | ⟨x, hx1, hx2⟩
        · rw [dropLast_map] at hint
          rcases List.mem_map.mp hint with ⟨x, hx, rfl⟩
          intro d hd
          simp only [Term.dests_retarget, List.mem_map] at hd
          rcases hd with ⟨j, hj, rfl⟩
          have := (internal_dests (helseI x hx)).2 j hj
          omega
        · intro d hd
          rw [hx2] at hd
          simp [Term.dests] at hd
          omega
      · intro d hd
        rcases List.mem_singleton.mp hend with rfl
        rw [Term.dests_subst, hexit] at hd
        simp at hd
    · intro b hb
      rw [List.dropLast_cons_of_ne_nil (by simp),
        List.dropLast_concat] at hb
      rcases List.mem_cons.mp hb with rfl | hb1
      · simp [Term.dests]
      rcases List.mem_append.mp hb1 with hbt | hbe
      · rcases mem_mapLast _ _ _ hbt with hint | ⟨x, hx1, hx2⟩
        · rw [dropLast_map] at hint
          rcases List.mem_map.mp hint with ⟨x, hx, rfl⟩
          have h1 := (internal_dests (hthenI' x hx)).1
          simp only [Term.dests_retarget]
          simpa using h1
        · rw [hx2]
          simp [Term.dests]
      · rcases mem_mapLast _ _ _ hbe with hint | ⟨x, hx1, hx2⟩
        · rw [dropLast_map] at hint
          rcases List.mem_map.mp hint with ⟨x, hx, rfl⟩
          have h1 := (internal_dests (helseI x hx)).1
          simp only [Term.dests_retarget]
          simpa using h1
        · rw [hx2]
          simp [Term.dests]
    · refine ⟨_, getLast_cons_append_ne_nil _ _ _ (by simp), ?_⟩
      exact (Term.dests_subst _ pTerm).trans hexit
  | false =>
    simp only [Bool.false_eq_true, if_false, ite_false]
    refine ⟨_, _, rfl, ?_, ?_, ?_⟩
    · intro b hb
      simp only [List.length_cons, List.length_append, mapLast_length,
        List.length_map, List.length_nil]
      rcases List.mem_cons.mp hb with rfl | hb1
      · intro d hd
        simp only [Term.dests, List.mem_cons, List.not_mem_nil, or_false] at hd
        rcases hd with rfl | rfl
        · omega
        · split <;> omega
      rcases List.mem_append.mp hb1 with hb2 | hend
      rcases List.mem_append.mp hb2 with hbt | hbe
      · rcases mem_mapLast _ _ _ hbt with hint | ⟨x, hx1, hx2⟩
        · rw [dropLast_map] at hint
          rcases List.mem_map.mp hint with ⟨x, hx, rfl⟩
          intro d hd
          simp only [Term.dests_retarget, List.mem_map] at hd
          rcases hd with ⟨j, hj, rfl⟩
          have := (internal_dests (hthenI' x hx)).2 j hj
          omega
        · intro d hd
          rw [hx2] at hd
          simp [Term.dests] at hd
          omega
      · rcases mem_mapLast _ _ _ hbe with hint | ⟨x, hx1, hx2⟩
        · rw [dropLast_map] at hint
          rcases List.mem_map.mp hint with ⟨x, hx, rfl⟩
          intro d hd
          simp only [Term.dests_retarget, List.mem_map] at hd
          rcases hd with ⟨j, hj, rfl⟩
          have := (internal_dests (helseI x hx)).2 j hj
          omega
        · intro d hd
          rw [hx2] at hd
          simp [Term.dests] at hd
          omega
      · rcases List.mem_cons.mp hend with rfl | hend2
        · intro d hd
          simp [Term.dests] at hd
          omega
        · intro d hd
          rcases List.mem_singleton.mp hend2 with rfl
          rw [Term.dests_subst, hexit] at hd
          simp at hd
    · intro b hb
      rw [List.dropLast_cons_of_ne_nil (by simp),
        List.dropLast_append_of_ne_nil _ (by simp)] at hb
      rcases List.mem_cons.mp hb with rfl | hb1
      · simp [Term.dests]
      rcases List.mem_append.mp hb1 with hb2 | hdom
      rcases List.mem_append.mp hb2 with hbt | hbe
      · rcases mem_mapLast _ _ _ hbt with hint | ⟨x, hx1, hx2⟩
        · rw [dropLast_map] at hint
          rcases List.mem_map.mp hint with ⟨x, hx, rfl⟩
          have h1 := (internal_dests (hthenI' x hx)).1
          simp only [Term.dests_retarget]
          simpa using h1
        · rw [hx2]
          simp [Term.dests]
      · rcases mem_mapLast _ _ _ hbe with hint | ⟨x, hx1, hx2⟩
        · rw [dropLast_map] at hint
          rcases List.mem_map.mp hint with ⟨x, hx, rfl⟩
          have h1 := (internal_dests (helseI x hx)).1
          simp only [Term.dests_retarget]
          simpa using h1
        · rw [hx2]
          simp [Term.dests]
      · have : b ∈ [({ args := (List.range i.resultTypes.length).map (fun k => fresh + k), argTypes := i.resultTypes, ops := [], term := Term.br (trest.length + 1 + i.elseRegion.length + 2) [] } : Block)] := by
          simpa using hdom
        rcases List.mem_singleton.mp this with rfl
        simp [Term.dests]
    · refine ⟨_, getLast_cons_append_ne_nil _ _ _ (by simp), ?_⟩
      exact (Term.dests_subst _ pTerm).trans hexit

/-- C8: the CFG subgraph created by the loop-to-CFG lowering for a
`loop.for` or a `loop.if` placed in a single-block region has a single
entry block and a single exit block, and these are respectively the first
and last blocks of the rewritten parent region: no branch targets the
entry block, every block before the final one branches inside the region,
and only the final continuation block carries the region-exiting
terminator. -/
theorem loop_lowering_single_entry_exit
    (pArgs : List Nat) (pre post : List Op) (pTerm : Term)
    (f : ForOp) (fresh : Nat) (B0 : Block) (rest : List Block)
    (iv : Nat) (carried : List Nat)
    (pArgs2 : List Nat) (pre2 post2 : List Op) (pTerm2 : Term)
    (iop : IfOp) (fresh2 : Nat) (T0 : Block) (trest : List Block)
    (hreg : f.region = B0 :: rest)
    (hargs : B0.args = iv :: carried)
    (hres : f.results.length = carried.length)
    (hbody : ∀ b ∈ f.region.dropLast,
      b.term.internalWithin f.region.length)
    (hexit : pTerm.dests = [])
    (hthen : iop.thenRegion = T0 :: trest)
    (hlen : iop.results.length = iop.resultTypes.length)
    (hthenI : ∀ b ∈ iop.thenRegion.dropLast,
      b.term.internalWithin iop.thenRegion.length)
    (helseI : ∀ b ∈ iop.elseRegion.dropLast,
      b.term.internalWithin iop.elseRegion.length)
    (hexit2 : pTerm2.dests = []) :
    (∃ R, forLowering pArgs pre post pTerm f fresh = some (R, carried) ∧
       singleEntryExit R) ∧
    (∃ R repl, ifLowering pArgs2 pre2 post2 pTerm2 iop fresh2 =
       some (R, repl) ∧ singleEntryExit R) :=
  ⟨forLowering_entry_exit pArgs pre post pTerm f fresh B0 rest iv carried
     hreg hargs hres hbody hexit,
   ifLowering_entry_exit pArgs2 pre2 post2 pTerm2 iop fresh2 T0 trest
     hthen hlen hthenI helseI hexit2⟩

/-- Witness for C8 at a concrete one-block `loop.for` and a concrete
two-region `loop.if`. -/
theorem loop_lowering_single_entry_exit_witness :
    (∃ R, LoopToStd.forLowering [1, 2] [] [] (LoopToStd.Term.ret [50])
        ⟨10, 11, 12, [13], [50], [⟨[100, 101], [0, 0],
          [LoopToStd.Op.generic 9 200 [100, 101]],
          LoopToStd.Term.yield [200]⟩]⟩ 900 = some (R, [101]) ∧
       LoopToStd.singleEntryExit R) ∧
    (∃ R repl, LoopToStd.ifLowering [1] []
        [LoopToStd.Op.generic 3 500 [60]] (LoopToStd.Term.ret [60])
        ⟨40, [60], [7], [⟨[], [], [LoopToStd.Op.generic 1 400 []],
          LoopToStd.Term.yield [400]⟩], [⟨[], [],
          [LoopToStd.Op.generic 2 401 []], LoopToStd.Term.yield [401]⟩]⟩
        900 = some (R, repl) ∧ LoopToStd.singleEntryExit R) :=
  loop_lowering_single_entry_exit [1, 2] [] [] (LoopToStd.Term.ret [50])
    ⟨10, 11, 12, [13], [50], [⟨[100, 101], [0, 0],
      [LoopToStd.Op.generic 9 200 [100, 101]],
      LoopToStd.Term.yield [200]⟩]⟩ 900
    ⟨[100, 101], [0, 0], [LoopToStd.Op.generic 9 200 [100, 101]],
      LoopToStd.Term.yield [200]⟩ [] 100 [101]
    [1] [] [LoopToStd.Op.generic 3 500 [60]] (LoopToStd.Term.ret [60])
    ⟨40, [60], [7], [⟨[], [], [LoopToStd.Op.generic 1 400 []],
      LoopToStd.Term.yield [400]⟩], [⟨[], [],
      [LoopToStd.Op.generic 2 401 []], LoopToStd.Term.yield [401]⟩]⟩ 900
    ⟨[], [], [LoopToStd.Op.generic 1 400 []],
      LoopToStd.Term.yield [400]⟩ []
    rfl rfl rfl (by simp) rfl rfl rfl (by simp) (by simp) rfl

end LoopTheorems5
